import Mathlib

/-!
Shallow embedding of the whiteboard server (the Socket.io side of
`next.config.ts`): the session registry, the stroke log, the hue
allocator, and the event handlers of the connection coordinator.
JavaScript dynamic values that the handlers inspect with `typeof` or
nullish checks are modelled by the `JsVal` type; `Math.random()` draws
are modelled as oracle parameters carried by the events.
-/

namespace Whiteboard

/-- A JavaScript value as far as the handlers inspect it: a string, a
number, `null`, or `undefined` (also standing for an absent field). -/
inductive JsVal where
  | vstr : String → JsVal
  | vnum : Int → JsVal
  | vnull : JsVal
  | vundef : JsVal
deriving DecidableEq, Repr

/-- JS `v ?? null`: `null`/`undefined` collapse to `null`, everything
else passes through. -/
def coalesceNull (v : JsVal) : JsVal :=
  match v with
  | .vnull => .vnull
  | .vundef => .vnull
  | v => v

/-- `typeof v === 'string' ? v : none` — the string extraction the clear
handlers perform on payload fields. -/
def asString? (v : JsVal) : Option String :=
  match v with
  | .vstr s => some s
  | _ => none

/-- JS `String.prototype.slice(0, n)` on the code points of `s`. -/
def strTake (s : String) (n : Nat) : String := ⟨s.data.take n⟩

/-- JS `String.prototype.trim()`: drop leading and trailing whitespace. -/
def strTrim (s : String) : String :=
  ⟨((s.data.dropWhile Char.isWhitespace).reverse.dropWhile Char.isWhitespace).reverse⟩

/-- JS `a || b` for strings: the empty string is falsy. -/
def strOrElse (a b : String) : String := if a = "" then b else a

/-- Registry metadata for one live connection: `{ color, hue, name }`
as stored by the connection handler. -/
structure Meta where
  color : String
  hue : Nat
  name : String
deriving DecidableEq, Repr

/-- One stored stroke: the `safePayload` built by the draw handler,
`{ x, y, prevX, prevY, color, lineWidth, username, authorId }`.
`x`, `y`, `prevX`, `prevY` are stored as the raw JS values the handler
produced. -/
structure Stroke where
  x : JsVal
  y : JsVal
  prevX : JsVal
  prevY : JsVal
  color : String
  lineWidth : Int
  username : String
  authorId : String
deriving DecidableEq, Repr

/-- The `connectedSockets` map, as an insertion-ordered association
list (JS `Map` iterates in insertion order). -/
abbrev Registry := List (String × Meta)

/-- JS `Map.prototype.get`. -/
def mapGet (m : Registry) (k : String) : Option Meta :=
  (m.find? (fun p => p.1 = k)).map (fun p => p.2)

/-- JS `Map.prototype.set`: update in place when the key exists,
otherwise append. -/
def mapSet (m : Registry) (k : String) (v : Meta) : Registry :=
  if m.any (fun p => p.1 = k) then
    m.map (fun p => if p.1 = k then (k, v) else p)
  else m ++ [(k, v)]

/-- JS `Map.prototype.delete`. -/
def mapDelete (m : Registry) (k : String) : Registry :=
  m.filter (fun p => p.1 ≠ k)

/-- `makeColorFromHue`: the color string `hsl(<hue> 90% 50%)`. -/
def makeColorFromHue (hue : Nat) : String :=
  "hsl(" ++ toString hue ++ " 90% 50%)"

/-- `getUsedHues(connected)`: the set of hues of the live registry
entries. Every entry the server ever stores carries a numeric `hue`
(the only creation site is the connection handler), so the source's
fallback branch that re-parses a hue out of the color string is
unreachable and the set is exactly the entries' hue fields. -/
def getUsedHues (m : Registry) : Finset Nat :=
  (m.map (fun p => p.2.hue)).toFinset

/-- The probe loop of `assignUniqueHue`: starting at probe index `i`
with `fuel` attempts left, return the first hue
`(seed + i * 137) % 360` outside `used`. -/
def findFreeHue (used : Finset Nat) (seed : Nat) : Nat → Nat → Option Nat
  | _, 0 => none
  | i, fuel + 1 =>
    let hue := (seed + i * 137) % 360
    if hue ∈ used then findFreeHue used seed (i + 1) fuel else some hue

/-- `assignUniqueHue(connected)`: probe up to 360 hues from the rotating
seed with a 137° step; on success advance the seed to
`(hue + 137) % 360`, otherwise fall back to a random hue in `[0, 360)`
(modelled by the oracle value `rnd`, reduced mod 360 as
`Math.floor(Math.random() * 360)` always lies in `[0, 360)`) and leave
the seed unchanged. Returns `(hue, new seed)`. -/
def assignUniqueHue (m : Registry) (seed : Nat) (rnd : Nat) : Nat × Nat :=
  let used := getUsedHues m
  match findFreeHue used seed 0 360 with
  | some hue => (hue, (hue + 137) % 360)
  | none => (rnd % 360, seed)

/-- The decimal digit character of `d % 10`. -/
def digitChar (d : Nat) : Char := Char.ofNat (48 + d % 10)

/-- The decimal string of a four-digit number `n ∈ [1000, 9999]`. -/
def fourDigitString (n : Nat) : String :=
  ⟨[digitChar (n / 1000), digitChar (n / 100), digitChar (n / 10), digitChar n]⟩

/-- The generated placeholder `` `User-${Math.floor(1000 + Math.random() * 9000)}` ``:
the oracle draw `rnd` supplies the random number, reduced into
`[1000, 9999]` exactly as `Math.floor(1000 + Math.random() * 9000)`
lands there. -/
def genName (rnd : Nat) : String :=
  "User-" ++ fourDigitString (1000 + rnd % 9000)

/-- The mutable server state: `connectedSockets`, `strokes`, `hueSeed`. -/
structure ServerState where
  connected : Registry
  strokes : List Stroke
  hueSeed : Nat
deriving DecidableEq, Repr

/-- The initial state: no connections, no strokes, a random initial
seed (`hueSeed = Math.floor(Math.random() * 360)`, an oracle value). -/
def initState (seed : Nat) : ServerState :=
  { connected := [], strokes := [], hueSeed := seed % 360 }

/-- One outbound Socket.io emission, in emission order. `boardStateTo`
and `initMsg` go to a single socket, `drawBroadcast` to everyone except
the sender, the rest to every connected client. -/
inductive OutMsg where
  | initMsg : String → String → String → OutMsg
  | boardStateTo : String → List Stroke → OutMsg
  | boardStateAll : List Stroke → OutMsg
  | usersCount : Nat → OutMsg
  | presence : List (String × String × String) → OutMsg
  | drawBroadcast : String → Stroke → OutMsg
  | clearSignalAll : OutMsg
deriving DecidableEq, Repr

/-- Whether an emission is delivered to the client `c`. -/
def OutMsg.deliveredTo (m : OutMsg) (c : String) : Bool :=
  match m with
  | .initMsg t _ _ => t == c
  | .boardStateTo t _ => t == c
  | .boardStateAll _ => true
  | .usersCount _ => true
  | .presence _ => true
  | .drawBroadcast sender _ => sender != c
  | .clearSignalAll => true

/-- `broadcastPresence`: the `{id, name, color}` roster. -/
def presenceList (m : Registry) : List (String × String × String) :=
  m.map (fun p => (p.1, p.2.name, p.2.color))

/-- The fields of a client draw payload the handler reads:
`{ x, y, prevX, prevY, lineWidth }`, each a raw JS value. -/
structure DrawPayload where
  x : JsVal
  y : JsVal
  prevX : JsVal
  prevY : JsVal
  lineWidth : JsVal
deriving DecidableEq, Repr

/-- The `safePayload` the draw handler builds: nullish `prevX`/`prevY`
collapse to `null` (`?? null`), color and username fall back to
`'#3333ff'` / `'User'` when the registry entry or the field is falsy
(`||`), `lineWidth` falls back to 4 unless the payload's is a number,
and `authorId` is the sender's socket id. -/
def safeStroke (m : Registry) (sid : String) (p : DrawPayload) : Stroke :=
  let meta := mapGet m sid
  { x := p.x
    y := p.y
    prevX := coalesceNull p.prevX
    prevY := coalesceNull p.prevY
    color := strOrElse (match meta with | some mt => mt.color | none => "") "#3333ff"
    lineWidth := match p.lineWidth with | .vnum n => n | _ => 4
    username := strOrElse (match meta with | some mt => mt.name | none => "") "User"
    authorId := sid }

/-- An inbound event at the coordinator. `connect` carries the two
`Math.random()` oracle draws (placeholder-name digits and the
allocator's exhaustion fallback); `setName` carries the draw for the
placeholder substituted when the sanitized name is empty. -/
inductive Event where
  | connect : String → Nat → Nat → Event
  | requestBoardState : String → Event
  | setName : String → JsVal → Nat → Event
  | draw : String → DrawPayload → Event
  | clearLegacy : String → Event
  | clearMine : String → Event
  | clearByColor : String → JsVal → Event
  | clearByUsername : String → JsVal → Event
  | clearByAuthor : String → JsVal → Event
  | requestClearAll : String → Event
  | disconnect : String → Event
deriving DecidableEq, Repr

/-- The `clearMine` filter (shared by the legacy `clear` handler): keep
a stroke only when its `authorId`, `username` and `color` all differ
from the sender's; an absent registry entry makes the `username` and
`color` comparisons vacuously true (JS `s.username !== undefined`). -/
def clearMineKeep (meta : Option Meta) (sid : String) (s : Stroke) : Bool :=
  s.authorId != sid
    && (match meta with | some mt => s.username != mt.name | none => true)
    && (match meta with | some mt => s.color != mt.color | none => true)

/-- The connection-event dispatcher: one inbound event handled to
completion, returning the new state and the ordered emissions. -/
def step (st : ServerState) (e : Event) : ServerState × List OutMsg :=
  match e with
  | .connect sid rndName rndHue =>
    let hs := assignUniqueHue st.connected st.hueSeed rndHue
    let color := makeColorFromHue hs.1
    let defaultName := genName rndName
    let connected := mapSet st.connected sid
      { color := color, hue := hs.1, name := defaultName }
    ({ st with connected := connected, hueSeed := hs.2 },
     [OutMsg.initMsg sid color defaultName,
      OutMsg.boardStateTo sid st.strokes,
      OutMsg.usersCount connected.length,
      OutMsg.presence (presenceList connected)])
  | .requestBoardState sid =>
    (st, [OutMsg.boardStateTo sid st.strokes])
  | .setName sid payloadName rnd =>
    let rawName := match asString? payloadName with | some s => s | none => ""
    let sanitized := strOrElse (strTake (strTrim rawName) 24) (genName rnd)
    (match mapGet st.connected sid with
     | some meta =>
       let connected := mapSet st.connected sid { meta with name := sanitized }
       ({ st with connected := connected },
        [OutMsg.presence (presenceList connected)])
     | none => (st, []))
  | .draw sid p =>
    let s := safeStroke st.connected sid p
    ({ st with strokes := st.strokes ++ [s] }, [OutMsg.drawBroadcast sid s])
  | .clearLegacy sid =>
    let meta := mapGet st.connected sid
    let strokes := st.strokes.filter (clearMineKeep meta sid)
    ({ st with strokes := strokes }, [OutMsg.boardStateAll strokes])
  | .clearMine sid =>
    let meta := mapGet st.connected sid
    let strokes := st.strokes.filter (clearMineKeep meta sid)
    ({ st with strokes := strokes }, [OutMsg.boardStateAll strokes])
  | .clearByColor _ payload =>
    (match asString? payload with
     | some c =>
       if c = "" then (st, [])
       else
         let strokes := st.strokes.filter (fun s => s.color != c)
         ({ st with strokes := strokes }, [OutMsg.boardStateAll strokes])
     | none => (st, []))
  | .clearByUsername _ payload =>
    let name := match asString? payload with | some s => strTrim s | none => ""
    if name = "" then (st, [])
    else
      let strokes := st.strokes.filter
        (fun s => strTrim (strOrElse s.username "") != name)
      ({ st with strokes := strokes }, [OutMsg.boardStateAll strokes])
  | .clearByAuthor _ payload =>
    let authorId := match asString? payload with | some s => s | none => ""
    if authorId = "" then (st, [])
    else
      let strokes := st.strokes.filter (fun s => s.authorId != authorId)
      ({ st with strokes := strokes }, [OutMsg.boardStateAll strokes])
  | .requestClearAll _ =>
    ({ st with strokes := [] },
     [OutMsg.clearSignalAll, OutMsg.boardStateAll []])
  | .disconnect sid =>
    let connected := mapDelete st.connected sid
    ({ st with connected := connected },
     [OutMsg.usersCount connected.length,
      OutMsg.presence (presenceList connected)])

/-- Run a sequence of events from a state. -/
def runEvents (st : ServerState) (es : List Event) : ServerState :=
  es.foldl (fun s e => (step s e).1) st

/-- An event is admissible at a state when the transport could deliver
it there: Socket.io never fires `connection` with the id of a socket
that is still connected (socket ids are fresh per connection). All
other events are unrestricted — the handlers are total. -/
def Admissible (st : ServerState) (e : Event) : Prop :=
  match e with
  | .connect sid _ _ => mapGet st.connected sid = none
  | _ => True

/-- States reachable by admissible events along a trace on which at
most 360 connections are ever simultaneously live. -/
inductive ReachableCap : ServerState → Prop where
  | init (seed : Nat) : ReachableCap (initState seed)
  | step (st : ServerState) (e : Event) : ReachableCap st → Admissible st e →
      ((step st e).1.connected.length ≤ 360) → ReachableCap (step st e).1

/-- The invariant maintained over the registry: distinct socket ids,
pairwise-distinct hues, all hues in `[0, 360)`. -/
def RegInv (st : ServerState) : Prop :=
  (st.connected.map (fun p => p.1)).Nodup ∧
  (st.connected.map (fun p => p.2.hue)).Nodup ∧
  ∀ h ∈ st.connected.map (fun p => p.2.hue), h < 360

/-- Sample registry entry, used for concrete evaluation. -/
def sampleMeta : Meta := { color := "c1", hue := 1, name := "n1" }

/-- Sample stroke authored by the sample connection. -/
def sampleStroke : Stroke :=
  { x := .vnum 0, y := .vnum 0, prevX := .vnull, prevY := .vnull,
    color := "c1", lineWidth := 4, username := "n1", authorId := "s1" }

/-- Sample stroke authored by a different (since departed) connection. -/
def sampleStroke2 : Stroke :=
  { x := .vnum 5, y := .vnum 5, prevX := .vnum 1, prevY := .vnum 1,
    color := "c2", lineWidth := 2, username := "n2", authorId := "s2" }

/-- Sample server state: one live connection, two strokes. -/
def sampleState : ServerState :=
  { connected := [("s1", sampleMeta)],
    strokes := [sampleStroke, sampleStroke2], hueSeed := 0 }

/-- Sample draw payload with a present zero `prevX`, an absent `prevY`
and a non-numeric line width. -/
def samplePayload : DrawPayload :=
  { x := .vnum 0, y := .vnum 0, prevX := .vnum 0, prevY := .vundef,
    lineWidth := .vstr "wide" }

/-! ## Hue allocator lemmas -/

lemma findFreeHue_some_spec (used : Finset Nat) (seed : Nat) :
    ∀ fuel i h, findFreeHue used seed i fuel = some h → h ∉ used ∧ h < 360 := by
  intro fuel
  induction fuel with
  | zero => intro i h hh; simp [findFreeHue] at hh
  | succ f ih =>
    intro i h hh
    simp only [findFreeHue] at hh
    by_cases hc : (seed + i * 137) % 360 ∈ used
    · rw [if_pos hc] at hh
      exact ih _ _ hh
    · rw [if_neg hc] at hh
      cases hh
      exact ⟨hc, Nat.mod_lt _ (by norm_num)⟩

lemma findFreeHue_covers (used : Finset Nat) (seed : Nat) :
    ∀ fuel i, (∃ k, k < fuel ∧ (seed + (i + k) * 137) % 360 ∉ used) →
      (findFreeHue used seed i fuel).isSome := by
  intro fuel
  induction fuel with
  | zero =>
    rintro i ⟨k, hk, _⟩
    omega
  | succ f ih =>
    rintro i ⟨k, hk, hfree⟩
    simp only [findFreeHue]
    by_cases hc : (seed + i * 137) % 360 ∈ used
    · rw [if_pos hc]
      apply ih
      cases k with
      | zero =>
        exact absurd hc (by simpa using hfree)
      | succ k =>
        refine ⟨k, by omega, ?_⟩
        have harith : i + (k + 1) = (i + 1) + k := by omega
        rwa [harith] at hfree
    · rw [if_neg hc]
      simp

lemma probe_injOn (seed : Nat) :
    Set.InjOn (fun i => (seed + i * 137) % 360) (Finset.range 360) := by
  intro i hi j hj hij
  simp only [Finset.coe_range, Set.mem_Iio] at hi hj
  have h1 : Nat.ModEq 360 (seed + i * 137) (seed + j * 137) := hij
  have h2 : Nat.ModEq 360 (i * 137) (j * 137) := Nat.ModEq.add_left_cancel' seed h1
  have h3 : Nat.ModEq 360 i j :=
    Nat.ModEq.cancel_right_of_coprime (by norm_num) h2
  have h4 : i % 360 = j % 360 := h3
  rwa [Nat.mod_eq_of_lt hi, Nat.mod_eq_of_lt hj] at h4

lemma exists_free_probe (used : Finset Nat) (seed : Nat) (h : used.card < 360) :
    ∃ k, k < 360 ∧ (seed + k * 137) % 360 ∉ used := by
  by_contra hcon
  push_neg at hcon
  have hsub : (Finset.range 360).image (fun i => (seed + i * 137) % 360) ⊆ used := by
    intro x hx
    simp only [Finset.mem_image, Finset.mem_range] at hx
    obtain ⟨i, hi, rfl⟩ := hx
    exact hcon i hi
  have hcard : ((Finset.range 360).image (fun i => (seed + i * 137) % 360)).card = 360 := by
    rw [Finset.card_image_of_injOn (probe_injOn seed), Finset.card_range]
  have hle := Finset.card_le_card hsub
  omega

lemma assignUniqueHue_fresh_aux (m : Registry) (seed rnd : Nat)
    (h : (getUsedHues m).card < 360) :
    (assignUniqueHue m seed rnd).1 < 360 ∧ (assignUniqueHue m seed rnd).1 ∉ getUsedHues m := by
  obtain ⟨k, hk, hfree⟩ := exists_free_probe (getUsedHues m) seed h
  have hsome : (findFreeHue (getUsedHues m) seed 0 360).isSome := by
    apply findFreeHue_covers
    exact ⟨k, hk, by simpa using hfree⟩
  cases heq : findFreeHue (getUsedHues m) seed 0 360 with
  | none =>
    rw [heq] at hsome
    simp at hsome
  | some hue =>
    have h2 := findFreeHue_some_spec (getUsedHues m) seed 360 0 hue heq
    simp only [assignUniqueHue, heq]
    exact ⟨h2.2, h2.1⟩

/-! ## Registry map lemmas -/

lemma mapGet_cons_pos (a : String × Meta) (t : Registry) (k : String)
    (ha : a.1 = k) : mapGet (a :: t) k = some a.2 := by
  unfold mapGet
  rw [List.find?_cons_of_pos _ (by simp [ha])]
  rfl

lemma mapGet_cons_neg (a : String × Meta) (t : Registry) (k : String)
    (ha : a.1 ≠ k) : mapGet (a :: t) k = mapGet t k := by
  unfold mapGet
  rw [List.find?_cons_of_neg _ (by simp [ha])]

lemma mapGet_eq_none_iff (m : Registry) (k : String) :
    mapGet m k = none ↔ ∀ p ∈ m, p.1 ≠ k := by
  simp [mapGet, List.find?_eq_none]

lemma any_key_eq_false (m : Registry) (k : String)
    (h : mapGet m k = none) : m.any (fun p => p.1 = k) = false := by
  have hall := (mapGet_eq_none_iff m k).mp h
  simp only [List.any_eq_false, decide_eq_true_eq]
  exact hall

lemma any_key_eq_true (m : Registry) (k : String) (meta : Meta)
    (h : mapGet m k = some meta) : m.any (fun p => p.1 = k) = true := by
  unfold mapGet at h
  cases hfind : m.find? (fun p => p.1 = k) with
  | none =>
    rw [hfind] at h
    simp at h
  | some p =>
    have hmem := List.mem_of_find?_eq_some hfind
    have hpk := List.find?_some hfind
    simp only [List.any_eq_true]
    exact ⟨p, hmem, hpk⟩

lemma mapSet_fresh (m : Registry) (k : String) (v : Meta)
    (h : mapGet m k = none) : mapSet m k v = m ++ [(k, v)] := by
  simp [mapSet, any_key_eq_false m k h]

lemma mapGet_mapSet_self (m : Registry) (k : String) (v : Meta) :
    mapGet (mapSet m k v) k = some v := by
  induction m with
  | nil => simp [mapSet, mapGet]
  | cons a t ih =>
    by_cases ha : a.1 = k
    · have hany : (a :: t).any (fun p => p.1 = k) = true := by
        simp [List.any_cons, ha]
      simp only [mapSet, hany, if_true, List.map_cons, if_pos ha]
      exact mapGet_cons_pos (k, v) _ k rfl
    · by_cases ht : t.any (fun p => p.1 = k) = true
      · have hany : (a :: t).any (fun p => p.1 = k) = true := by
          simp [List.any_cons, ht]
        have ihs : mapGet (t.map (fun p => if p.1 = k then (k, v) else p)) k = some v := by
          have := ih
          simpa only [mapSet, ht, if_true] using this
        simp only [mapSet, hany, if_true, List.map_cons, if_neg ha]
        rw [mapGet_cons_neg a _ k ha]
        exact ihs
      · have htf : t.any (fun p => p.1 = k) = false := by
          revert ht
          cases t.any (fun p => p.1 = k) <;> simp
        have hany : (a :: t).any (fun p => p.1 = k) = false := by
          simp [List.any_cons, htf, ha]
        have ihs : mapGet (t ++ [(k, v)]) k = some v := by
          have := ih
          simpa only [mapSet, htf, Bool.false_eq_true, if_false] using this
        simp only [mapSet, hany, Bool.false_eq_true, if_false, List.cons_append]
        rw [mapGet_cons_neg a _ k ha]
        exact ihs

lemma map_update_id_of_not_mem (t : Registry) (k : String) (v : Meta)
    (h : ∀ p ∈ t, p.1 ≠ k) :
    t.map (fun p => if p.1 = k then (k, v) else p) = t := by
  induction t with
  | nil => rfl
  | cons a t ih =>
    have ha : a.1 ≠ k := h a (List.mem_cons_self a t)
    simp only [List.map_cons, if_neg ha]
    rw [ih (fun p hp => h p (List.mem_cons_of_mem a hp))]

lemma mapSet_same_hue (m : Registry) (k : String) (v : Meta) (meta : Meta)
    (hnd : (m.map (fun p => p.1)).Nodup) (hget : mapGet m k = some meta)
    (hhue : v.hue = meta.hue) :
    (mapSet m k v).map (fun p => p.1) = m.map (fun p => p.1) ∧
    (mapSet m k v).map (fun p => p.2.hue) = m.map (fun p => p.2.hue) := by
  induction m with
  | nil => simp [mapGet] at hget
  | cons a t ih =>
    simp only [List.map_cons, List.nodup_cons] at hnd
    by_cases ha : a.1 = k
    · have hmeta : meta = a.2 := by
        rw [mapGet_cons_pos a t k ha] at hget
        exact (Option.some_inj.mp hget).symm
      have hnot : ∀ p ∈ t, p.1 ≠ k := by
        intro p hp hpk
        exact hnd.1 (ha ▸ hpk ▸ List.mem_map_of_mem (fun q => q.1) hp)
      have hany : (a :: t).any (fun p => p.1 = k) = true := by
        simp [List.any_cons, ha]
      simp only [mapSet, hany, if_true, List.map_cons, if_pos ha,
        map_update_id_of_not_mem t k v hnot]
      exact ⟨by simp [ha], by simp [hhue, hmeta]⟩
    · have hget' : mapGet t k = some meta := by
        rwa [mapGet_cons_neg a t k ha] at hget
      have hex : t.any (fun p => p.1 = k) = true := any_key_eq_true t k meta hget'
      have hany : (a :: t).any (fun p => p.1 = k) = true := by
        simp [List.any_cons, hex]
      have iht := ih hnd.2 hget'
      have hsetT : mapSet t k v = t.map (fun p => if p.1 = k then (k, v) else p) := by
        simp [mapSet, hex]
      rw [hsetT] at iht
      simp only [mapSet, hany, if_true, List.map_cons, if_neg ha]
      exact ⟨by rw [iht.1], by rw [iht.2]⟩
/-! ## The registry hue invariant -/

lemma regInv_step (st : ServerState) (e : Event) (hinv : RegInv st)
    (hadm : Admissible st e) (hcap : (step st e).1.connected.length ≤ 360) :
    RegInv (step st e).1 := by
  obtain ⟨hkeys, hhues, hbound⟩ := hinv
  cases e with
  | connect sid rn rh =>
    have hfresh : mapGet st.connected sid = none := hadm
    have hconn : (step st (Event.connect sid rn rh)).1.connected
        = st.connected ++ [(sid,
            { color := makeColorFromHue (assignUniqueHue st.connected st.hueSeed rh).1,
              hue := (assignUniqueHue st.connected st.hueSeed rh).1,
              name := genName rn })] := by
      simp only [step]
      exact mapSet_fresh st.connected sid _ hfresh
    rw [hconn] at hcap
    simp only [RegInv, hconn]
    have hlen : st.connected.length ≤ 359 := by
      simp only [List.length_append, List.length_cons, List.length_nil] at hcap
      omega
    have hcard : (getUsedHues st.connected).card < 360 := by
      have h1 : (getUsedHues st.connected).card ≤ st.connected.length := by
        calc (getUsedHues st.connected).card
            ≤ (st.connected.map (fun p => p.2.hue)).length := List.toFinset_card_le _
          _ = st.connected.length := List.length_map _ _
      omega
    obtain ⟨hlt, hfree⟩ := assignUniqueHue_fresh_aux st.connected st.hueSeed rh hcard
    have hkeynot : sid ∉ st.connected.map (fun p => p.1) := by
      intro hmem
      rcases List.mem_map.mp hmem with ⟨p, hp, hpk⟩
      exact (mapGet_eq_none_iff st.connected sid).mp hfresh p hp hpk
    have hhuenot : (assignUniqueHue st.connected st.hueSeed rh).1
        ∉ st.connected.map (fun p => p.2.hue) := by
      intro hmem
      exact hfree (List.mem_toFinset.mpr hmem)
    refine ⟨?_, ?_, ?_⟩
    · rw [List.map_append]
      rw [List.nodup_append]
      exact ⟨hkeys, List.nodup_singleton _, by
        intro a ha hb
        simp only [List.map_cons, List.map_nil, List.mem_singleton] at hb
        exact hkeynot (hb ▸ ha)⟩
    · rw [List.map_append]
      rw [List.nodup_append]
      exact ⟨hhues, List.nodup_singleton _, by
        intro a ha hb
        simp only [List.map_cons, List.map_nil, List.mem_singleton] at hb
        exact hhuenot (hb ▸ ha)⟩
    · intro h hmem
      rw [List.map_append] at hmem
      rcases List.mem_append.mp hmem with hm | hm
      · exact hbound h hm
      · simp only [List.map_cons, List.map_nil, List.mem_singleton] at hm
        exact hm ▸ hlt
  | requestBoardState sid => exact ⟨hkeys, hhues, hbound⟩
  | setName sid pn r =>
    simp only [step]
    cases hm : mapGet st.connected sid with
    | none => exact ⟨hkeys, hhues, hbound⟩
    | some meta =>
      obtain ⟨hk, hh⟩ := mapSet_same_hue st.connected sid
        { meta with name := strOrElse (strTake (strTrim
            (match asString? pn with | some s => s | none => "")) 24) (genName r) }
        meta hkeys hm rfl
      exact ⟨hk ▸ hkeys, hh ▸ hhues, hh ▸ hbound⟩
  | draw sid p => exact ⟨hkeys, hhues, hbound⟩
  | clearLegacy sid => exact ⟨hkeys, hhues, hbound⟩
  | clearMine sid => exact ⟨hkeys, hhues, hbound⟩
  | clearByColor sid v =>
    simp only [step]
    cases asString? v with
    | none => exact ⟨hkeys, hhues, hbound⟩
    | some c =>
      by_cases hc : c = ""
      · simp only [if_pos hc]
        exact ⟨hkeys, hhues, hbound⟩
      · simp only [if_neg hc]
        exact ⟨hkeys, hhues, hbound⟩
  | clearByUsername sid v =>
    simp only [step]
    split
    · exact ⟨hkeys, hhues, hbound⟩
    · exact ⟨hkeys, hhues, hbound⟩
  | clearByAuthor sid v =>
    simp only [step]
    split
    · exact ⟨hkeys, hhues, hbound⟩
    · exact ⟨hkeys, hhues, hbound⟩
  | requestClearAll sid => exact ⟨hkeys, hhues, hbound⟩
  | disconnect sid =>
    have hsub : (mapDelete st.connected sid).Sublist st.connected :=
      List.filter_sublist _
    refine ⟨(hsub.map _).nodup hkeys, (hsub.map _).nodup hhues, ?_⟩
    intro h hmem
    rcases List.mem_map.mp hmem with ⟨p, hp, hph⟩
    exact hbound h (hph ▸ List.mem_map_of_mem _ (hsub.mem hp))

lemma reachableCap_regInv (st : ServerState) (h : ReachableCap st) : RegInv st := by
  induction h with
  | init seed => exact ⟨List.nodup_nil, List.nodup_nil, by simp [initState]⟩
  | step st e hr hadm hcap ih => exact regInv_step st e ih hadm hcap

/-! ## Stroke log and string lemmas -/

lemma runEvents_draws (ds : List (String × DrawPayload)) :
    ∀ st : ServerState,
      (runEvents st (ds.map (fun d => Event.draw d.1 d.2))).strokes
        = st.strokes ++ ds.map (fun d => safeStroke st.connected d.1 d.2) ∧
      (runEvents st (ds.map (fun d => Event.draw d.1 d.2))).connected = st.connected := by
  induction ds with
  | nil =>
    intro st
    simp [runEvents]
  | cons d t ih =>
    intro st
    have h1 : runEvents st ((d :: t).map (fun x => Event.draw x.1 x.2))
        = runEvents ((step st (Event.draw d.1 d.2)).1)
            (t.map (fun x => Event.draw x.1 x.2)) := rfl
    rw [h1]
    obtain ⟨hs, hc⟩ := ih ((step st (Event.draw d.1 d.2)).1)
    constructor
    · rw [hs]
      show (st.strokes ++ [safeStroke st.connected d.1 d.2])
          ++ t.map (fun x => safeStroke st.connected x.1 x.2)
        = st.strokes ++ (d :: t).map (fun x => safeStroke st.connected x.1 x.2)
      simp [List.append_assoc]
    · rw [hc]
      rfl

lemma genName_length (r : Nat) : (genName r).length = 9 := rfl

lemma genName_ne_empty (r : Nat) : genName r ≠ "" := by
  intro h
  have h2 := congrArg String.length h
  rw [genName_length r] at h2
  simp [String.length] at h2

lemma strTake_length_le (s : String) (n : Nat) : (strTake s n).length ≤ n := by
  show (s.data.take n).length ≤ n
  simp [List.length_take]

/-! ## Claim theorems -/

/-- C1: whenever the set of hues held by the live connections has fewer
than 360 elements, `assignUniqueHue` returns an integer hue in `[0, 360)`
that is not in that set — the 137° probe step visits all 360 residues
before repeating, so a free residue is always reached; consequently hues
assigned to successive connects stay pairwise distinct until more than
360 are live. -/
theorem assignUniqueHue_returns_fresh_hue (m : Registry) (seed rnd : Nat)
    (h : (getUsedHues m).card < 360) :
    (assignUniqueHue m seed rnd).1 < 360 ∧
      (assignUniqueHue m seed rnd).1 ∉ getUsedHues m :=
  assignUniqueHue_fresh_aux m seed rnd h

/-- Witness: the allocator applied to a one-entry registry. -/
theorem assignUniqueHue_returns_fresh_hue_witness :
    (getUsedHues [("s1", sampleMeta)]).card < 360 ∧
      ((assignUniqueHue [("s1", sampleMeta)] 0 0).1 < 360 ∧
        (assignUniqueHue [("s1", sampleMeta)] 0 0).1
          ∉ getUsedHues [("s1", sampleMeta)]) :=
  ⟨by decide, assignUniqueHue_returns_fresh_hue [("s1", sampleMeta)] 0 0 (by decide)⟩

/-- C4: `requestClearAll` empties the stroke log and sends, to every
client (the requester included), a `clear` signal followed by a board
state whose stroke list is empty. -/
theorem requestClearAll_wipes_and_signals (st : ServerState) (sid : String) :
    (step st (Event.requestClearAll sid)).1.strokes = [] ∧
    (step st (Event.requestClearAll sid)).2
      = [OutMsg.clearSignalAll, OutMsg.boardStateAll []] ∧
    ∀ c : String, ((step st (Event.requestClearAll sid)).2.filter
        (fun msg => msg.deliveredTo c))
      = [OutMsg.clearSignalAll, OutMsg.boardStateAll []] :=
  ⟨rfl, rfl, fun _ => rfl⟩

/-- C7: the stroke stored in the log and broadcast for a draw keeps
`prevX`/`prevY` null exactly when the payload's value is absent or null,
and keeps present numeric values — a present 0 included — unchanged, so
a dot stays distinguishable from a segment. -/
theorem draw_preserves_dot_vs_segment (st : ServerState) (sid : String)
    (p : DrawPayload) :
    (step st (Event.draw sid p)).1.strokes
      = st.strokes ++ [safeStroke st.connected sid p] ∧
    (step st (Event.draw sid p)).2
      = [OutMsg.drawBroadcast sid (safeStroke st.connected sid p)] ∧
    ((safeStroke st.connected sid p).prevX = JsVal.vnull
        ↔ (p.prevX = JsVal.vnull ∨ p.prevX = JsVal.vundef)) ∧
    (∀ n : Int, p.prevX = JsVal.vnum n →
        (safeStroke st.connected sid p).prevX = JsVal.vnum n) ∧
    ((safeStroke st.connected sid p).prevY = JsVal.vnull
        ↔ (p.prevY = JsVal.vnull ∨ p.prevY = JsVal.vundef)) ∧
    (∀ n : Int, p.prevY = JsVal.vnum n →
        (safeStroke st.connected sid p).prevY = JsVal.vnum n) := by
  refine ⟨rfl, rfl, ?_, ?_, ?_, ?_⟩
  · show coalesceNull p.prevX = JsVal.vnull ↔ _
    cases p.prevX <;> simp [coalesceNull]
  · intro n hn
    show coalesceNull p.prevX = JsVal.vnum n
    rw [hn]
    rfl
  · show coalesceNull p.prevY = JsVal.vnull ↔ _
    cases p.prevY <;> simp [coalesceNull]
  · intro n hn
    show coalesceNull p.prevY = JsVal.vnum n
    rw [hn]
    rfl

/-- Witness: a present `prevX = 0` survives as 0 (not null), on the
sample payload whose `prevY` is absent. -/
theorem draw_preserves_dot_vs_segment_witness :
    (safeStroke (initState 0).connected "s9" samplePayload).prevX
      = JsVal.vnum 0 :=
  (draw_preserves_dot_vs_segment (initState 0) "s9" samplePayload).2.2.2.1 0 rfl

/-- C8: in every state reachable by admissible connect, rename, draw,
clear and disconnect events along a trace on which at most 360
connections are ever simultaneously live, the allocator's used-hue set
equals the set of hues held by the live registry entries, and no two
live registry entries hold the same hue. -/
theorem reachable_used_hues_consistent (st : ServerState)
    (h : ReachableCap st) :
    getUsedHues st.connected = (st.connected.map (fun p => p.2.hue)).toFinset ∧
      (st.connected.map (fun p => p.2.hue)).Nodup :=
  ⟨rfl, (reachableCap_regInv st h).2.1⟩

/-- Witness: the state after two connects is reachable and satisfies
the hue consistency property. -/
theorem reachable_used_hues_consistent_witness :
    getUsedHues (step (step (initState 0) (Event.connect "a" 0 0)).1
        (Event.connect "b" 0 0)).1.connected
      = ((step (step (initState 0) (Event.connect "a" 0 0)).1
          (Event.connect "b" 0 0)).1.connected.map (fun p => p.2.hue)).toFinset ∧
    ((step (step (initState 0) (Event.connect "a" 0 0)).1
        (Event.connect "b" 0 0)).1.connected.map (fun p => p.2.hue)).Nodup := by
  have h1 : ReachableCap (step (initState 0) (Event.connect "a" 0 0)).1 :=
    ReachableCap.step (initState 0) (Event.connect "a" 0 0)
      (ReachableCap.init 0) rfl (by decide)
  have h2 : ReachableCap (step (step (initState 0) (Event.connect "a" 0 0)).1
      (Event.connect "b" 0 0)).1 :=
    ReachableCap.step _ (Event.connect "b" 0 0) h1 rfl (by decide)
  exact reachable_used_hues_consistent _ h2

/-- C2: after `clearMine` from a connection whose registry identity is
`meta`, exactly those previous strokes survive whose author connection
id, recorded author name, and color all differ from the sender's current
identity — matching any one of the three removes the stroke — and the
legacy `clear` handler behaves identically. -/
theorem clearMine_removes_any_identity_match (st : ServerState)
    (sid : String) (meta : Meta) (h : mapGet st.connected sid = some meta) :
    (∀ s : Stroke, s ∈ (step st (Event.clearMine sid)).1.strokes ↔
        (s ∈ st.strokes ∧ s.authorId ≠ sid ∧ s.username ≠ meta.name ∧
          s.color ≠ meta.color)) ∧
    (step st (Event.clearLegacy sid)).1 = (step st (Event.clearMine sid)).1 := by
  constructor
  · intro s
    show s ∈ st.strokes.filter (clearMineKeep (mapGet st.connected sid) sid) ↔ _
    rw [h, List.mem_filter]
    simp [clearMineKeep, and_assoc]
  · rfl

/-- Witness: the sample author's own stroke is gone after its
`clearMine`, evaluated through the membership characterization. -/
theorem clearMine_removes_any_identity_match_witness :
    sampleStroke ∈ (step sampleState (Event.clearMine "s1")).1.strokes ↔
      (sampleStroke ∈ sampleState.strokes ∧ sampleStroke.authorId ≠ "s1" ∧
        sampleStroke.username ≠ sampleMeta.name ∧
        sampleStroke.color ≠ sampleMeta.color) :=
  (clearMine_removes_any_identity_match sampleState "s1" sampleMeta rfl).1
    sampleStroke

/-- C3: after `clearByColor` with a non-empty color string `c`, no
remaining stroke has color `c`, and every stroke whose color differs
from `c` is still present. -/
theorem clearByColor_removes_exactly_color (st : ServerState)
    (sid c : String) (h : c ≠ "") :
    (∀ s ∈ (step st (Event.clearByColor sid (JsVal.vstr c))).1.strokes,
        s.color ≠ c) ∧
    (∀ s ∈ st.strokes, s.color ≠ c →
        s ∈ (step st (Event.clearByColor sid (JsVal.vstr c))).1.strokes) := by
  have hred : (step st (Event.clearByColor sid (JsVal.vstr c))).1.strokes
      = st.strokes.filter (fun s => s.color != c) := by
    show ((if c = "" then (st, ([] : List OutMsg)) else _) : _ × _).1.strokes = _
    rw [if_neg h]
  rw [hred]
  constructor
  · intro s hs
    have h2 := (List.mem_filter.mp hs).2
    simpa using h2
  · intro s hs hne
    exact List.mem_filter.mpr ⟨hs, by simpa using hne⟩

/-- Witness: the other author's differently-colored stroke survives a
`clearByColor "c1"` on the sample state. -/
theorem clearByColor_removes_exactly_color_witness :
    sampleStroke2 ∈ (step sampleState
        (Event.clearByColor "s1" (JsVal.vstr "c1"))).1.strokes :=
  (clearByColor_removes_exactly_color sampleState "s1" "c1" (by decide)).2
    sampleStroke2 (by decide) (by decide)

/-- C5: a rename from a live connection stores the proposed name trimmed
of surrounding whitespace and truncated to 24 characters, substituting a
freshly generated placeholder when that result is empty; the effective
name is non-empty and at most 24 characters, and the stroke log — every
stroke's recorded author name included — is unchanged. -/
theorem setName_sanitizes (st : ServerState) (sid : String) (pn : JsVal)
    (r : Nat) (meta : Meta) (h : mapGet st.connected sid = some meta) :
    mapGet (step st (Event.setName sid pn r)).1.connected sid
      = some { meta with name := (strOrElse (strTake (strTrim
          (match asString? pn with | some s => s | none => "")) 24)
          (genName r)) } ∧
    strOrElse (strTake (strTrim
        (match asString? pn with | some s => s | none => "")) 24)
        (genName r) ≠ "" ∧
    (strOrElse (strTake (strTrim
        (match asString? pn with | some s => s | none => "")) 24)
        (genName r)).length ≤ 24 ∧
    (step st (Event.setName sid pn r)).1.strokes = st.strokes := by
  have hred : (step st (Event.setName sid pn r)).1
      = { st with connected := (mapSet st.connected sid
          { meta with name := (strOrElse (strTake (strTrim
              (match asString? pn with | some s => s | none => "")) 24)
              (genName r)) }) } := by
    simp only [step, h]
  refine ⟨?_, ?_, ?_, ?_⟩
  · rw [hred]
    exact mapGet_mapSet_self st.connected sid _
  · by_cases he : strTake (strTrim
        (match asString? pn with | some s => s | none => "")) 24 = ""
    · rw [strOrElse, if_pos he]
      exact genName_ne_empty r
    · rw [strOrElse, if_neg he]
      exact he
  · by_cases he : strTake (strTrim
        (match asString? pn with | some s => s | none => "")) 24 = ""
    · rw [strOrElse, if_pos he, genName_length]
      omega
    · rw [strOrElse, if_neg he]
      exact strTake_length_le _ 24
  · rw [hred]

/-- Witness: renaming the sample connection to an all-whitespace name
stores a placeholder, leaves the log alone, and the stored name is a
non-empty string of at most 24 characters. -/
theorem setName_sanitizes_witness :
    mapGet (step sampleState
        (Event.setName "s1" (JsVal.vstr "   ") 0)).1.connected "s1"
      = some { sampleMeta with
          name := strOrElse (strTake (strTrim "   ") 24) (genName 0) } ∧
    strOrElse (strTake (strTrim "   ") 24) (genName 0) ≠ "" ∧
    (strOrElse (strTake (strTrim "   ") 24) (genName 0)).length ≤ 24 ∧
    (step sampleState (Event.setName "s1" (JsVal.vstr "   ") 0)).1.strokes
      = sampleState.strokes :=
  setName_sanitizes sampleState "s1" (JsVal.vstr "   ") 0 sampleMeta rfl

/-- C6: after any sequence of draw events, the board state sent in
response to `requestBoardState` — and the one sent to a newly connecting
client — lists exactly the strokes appended so far, in append order. -/
theorem boardState_lists_strokes_in_order (st : ServerState)
    (ds : List (String × DrawPayload)) (c : String) (rn rh : Nat) :
    (step (runEvents st (ds.map (fun d => Event.draw d.1 d.2)))
        (Event.requestBoardState c)).2
      = [OutMsg.boardStateTo c
          (st.strokes ++ ds.map (fun d => safeStroke st.connected d.1 d.2))] ∧
    ((step (runEvents st (ds.map (fun d => Event.draw d.1 d.2)))
        (Event.connect c rn rh)).2)[1]?
      = some (OutMsg.boardStateTo c
          (st.strokes ++ ds.map (fun d => safeStroke st.connected d.1 d.2))) := by
  obtain ⟨hs, _⟩ := runEvents_draws ds st
  constructor
  · show [OutMsg.boardStateTo c
        (runEvents st (ds.map (fun d => Event.draw d.1 d.2))).strokes] = _
    rw [hs]
  · show some (OutMsg.boardStateTo c
        (runEvents st (ds.map (fun d => Event.draw d.1 d.2))).strokes) = _
    rw [hs]

/-- C9: a selective clear whose argument violates its precondition — a
missing, non-string or empty color; a username missing, non-string or
empty after trimming; a missing, non-string or empty author id — is an
atomic no-op: the state is unchanged and nothing is emitted. -/
theorem selective_clear_bad_arg_noop (st : ServerState) (sid : String)
    (v : JsVal) :
    ((∀ s : String, v = JsVal.vstr s → s = "") →
        step st (Event.clearByColor sid v) = (st, [])) ∧
    ((∀ s : String, v = JsVal.vstr s → strTrim s = "") →
        step st (Event.clearByUsername sid v) = (st, [])) ∧
    ((∀ s : String, v = JsVal.vstr s → s = "") →
        step st (Event.clearByAuthor sid v) = (st, [])) := by
  refine ⟨?_, ?_, ?_⟩
  · intro hbad
    cases v with
    | vstr s => simp [step, asString?, hbad s rfl]
    | vnum n => rfl
    | vnull => rfl
    | vundef => rfl
  · intro hbad
    cases v with
    | vstr s => simp [step, asString?, hbad s rfl]
    | vnum n => rfl
    | vnull => rfl
    | vundef => rfl
  · intro hbad
    cases v with
    | vstr s => simp [step, asString?, hbad s rfl]
    | vnum n => rfl
    | vnull => rfl
    | vundef => rfl

/-- Witness: an absent color, a whitespace-only username, and an absent
author id each leave the sample state and its emissions untouched. -/
theorem selective_clear_bad_arg_noop_witness :
    step sampleState (Event.clearByColor "s1" JsVal.vundef)
      = (sampleState, []) ∧
    step sampleState (Event.clearByUsername "s1" (JsVal.vstr "  "))
      = (sampleState, []) ∧
    step sampleState (Event.clearByAuthor "s1" JsVal.vundef)
      = (sampleState, []) :=
  ⟨(selective_clear_bad_arg_noop sampleState "s1" JsVal.vundef).1
      (fun s hs => by cases hs),
   (selective_clear_bad_arg_noop sampleState "s1" (JsVal.vstr "  ")).2.1
      (fun s hs => by cases hs; rfl),
   (selective_clear_bad_arg_noop sampleState "s1" JsVal.vundef).2.2
      (fun s hs => by cases hs)⟩

/-- C10: a draw handled for a connection with no registry entry still
appends a stroke to the log and broadcasts it, with fallback color
`#3333ff`, fallback author name `User`, the sender's connection id as
author id, and line width 4 when the payload's line width is not a
number. -/
theorem draw_without_registry_entry (st : ServerState) (sid : String)
    (p : DrawPayload) (h : mapGet st.connected sid = none) :
    (step st (Event.draw sid p)).1.strokes
      = st.strokes ++ [safeStroke st.connected sid p] ∧
    (step st (Event.draw sid p)).2
      = [OutMsg.drawBroadcast sid (safeStroke st.connected sid p)] ∧
    (safeStroke st.connected sid p).color = "#3333ff" ∧
    (safeStroke st.connected sid p).username = "User" ∧
    (safeStroke st.connected sid p).authorId = sid ∧
    ((∀ n : Int, p.lineWidth ≠ JsVal.vnum n) →
        (safeStroke st.connected sid p).lineWidth = 4) := by
  refine ⟨rfl, rfl, ?_, ?_, rfl, ?_⟩
  · simp [safeStroke, h, strOrElse]
  · simp [safeStroke, h, strOrElse]
  · intro hn
    cases hl : p.lineWidth with
    | vnum n => exact absurd hl (hn n)
    | vstr s => simp [safeStroke, hl]
    | vnull => simp [safeStroke, hl]
    | vundef => simp [safeStroke, hl]

/-- Witness: a ghost connection's draw on the empty state gets the
fallback color and the fallback line width 4 (the sample payload's line
width is a string). -/
theorem draw_without_registry_entry_witness :
    (safeStroke (initState 0).connected "ghost" samplePayload).color
      = "#3333ff" ∧
    (safeStroke (initState 0).connected "ghost" samplePayload).lineWidth
      = 4 :=
  ⟨(draw_without_registry_entry (initState 0) "ghost" samplePayload rfl).2.2.1,
   (draw_without_registry_entry (initState 0) "ghost" samplePayload rfl).2.2.2.2.2
      (fun n hn => by cases hn)⟩

end Whiteboard
